import Mathlib

/-!
Shallow embedding of src/source/c/jhdf5/strcpyJHDF5.c.

Modelling conventions:

* A Java string is its list of UTF-16 code units (each a natural number
  below 2^16).  The JNI functions GetStringUTFLength and GetStringUTFRegion
  work over the modified-UTF-8 encoding of those units; GetStringUTFRegion
  takes its start and length arguments in UTF-16 code units and raises
  StringIndexOutOfBoundsException (modelled as Option.none) when the range
  overflows the string, and per the JNI specification the bytes it copies
  are not NUL-terminated.
* The caller's byte array is a list of bytes.  A pointer stored into the
  array occupies ptrWidth bytes in little-endian order (byte order is
  unobservable here because loads and stores use the same order).
* The native heap is a list of allocated blocks (address, contents)
  together with the next fresh address; calloc yields a zero-filled block.
  Reading the C string out of a block stops at the first NUL byte and is
  undefined (Option.none) when the block contains no NUL, because the read
  would run off the end of the allocation.
* Environment outcomes the C code reacts to are explicit Boolean
  parameters: whether GetPrimitiveArrayCritical succeeds for each array
  and whether calloc succeeds.  Each operation also returns the trace of
  observable JNI-side events (null-argument reports, pin attempts,
  releases, fatal-error reports, calls to free), used to state the
  error-ordering, pin-balance and release-count claims.
-/

namespace VLStr

/-- Size in bytes of a native pointer, as reported by getPointerSize
(sizeof(void *)); the model fixes the common 64-bit value. -/
def ptrWidth : Nat := 8

/-- Length in bytes of the modified-UTF-8 encoding of one UTF-16 code
unit, as counted by JNI GetStringUTFLength. -/
def utfUnitLen (u : Nat) : Nat :=
  if u = 0 then 2 else if u ≤ 127 then 1 else if u ≤ 2047 then 2 else 3

/-- Modified-UTF-8 encoding of one UTF-16 code unit. -/
def utfEncodeUnit (u : Nat) : List Nat :=
  if u = 0 then [192, 128]
  else if u ≤ 127 then [u]
  else if u ≤ 2047 then [192 + u / 64, 128 + u % 64]
  else [224 + u / 4096, 128 + u / 64 % 64, 128 + u % 64]

/-- Modified-UTF-8 encoding of a Java string. -/
def utfEncode (s : List Nat) : List Nat := s.flatMap utfEncodeUnit

/-- JNI GetStringUTFLength: the length in bytes of the modified-UTF-8
form of the string. -/
def GetStringUTFLength (s : List Nat) : Nat := (s.map utfUnitLen).sum

/-- JNI GetStringUTFRegion: start and len count UTF-16 code units, not
bytes.  On index overflow (start + len exceeding the number of code
units) the call raises StringIndexOutOfBoundsException and copies
nothing, modelled as none; otherwise it yields the modified-UTF-8 bytes
of the requested units, which per the JNI specification are not
NUL-terminated. -/
def GetStringUTFRegion (s : List Nat) (start len : Nat) : Option (List Nat) :=
  if start + len ≤ s.length then some (utfEncode ((s.drop start).take len)) else none

/-- Bytes of the C string at the start of an allocated block: the bytes
before the first NUL.  When the block contains no NUL byte the read runs
off the end of the allocation, which is undefined, modelled as none. -/
def cStringBytes (block : List Nat) : Option (List Nat) :=
  if 0 ∈ block then some (block.takeWhile (fun b => b != 0)) else none

/-- Decoding of modified-UTF-8 bytes back into UTF-16 code units, as
performed by JNI NewStringUTF; none on malformed input. -/
def utfDecode : List Nat → Option (List Nat)
  | [] => some []
  | b :: bs =>
    if b ≤ 127 then (utfDecode bs).map (fun us => b :: us)
    else if b < 192 then none
    else if b < 224 then
      match bs with
      | [] => none
      | b2 :: bs2 =>
        if 128 ≤ b2 ∧ b2 < 192 then
          (utfDecode bs2).map (fun us => ((b - 192) * 64 + (b2 - 128)) :: us)
        else none
    else if b < 240 then
      match bs with
      | b2 :: b3 :: bs3 =>
        if (128 ≤ b2 ∧ b2 < 192) ∧ (128 ≤ b3 ∧ b3 < 192) then
          (utfDecode bs3).map
            (fun us => ((b - 224) * 4096 + (b2 - 128) * 64 + (b3 - 128)) :: us)
        else none
      | _ => none
    else none

/-- JNI NewStringUTF applied to the C string held in a block: read the
bytes up to the first NUL and decode them from modified UTF-8. -/
def NewStringUTF (block : List Nat) : Option (List Nat) :=
  (cStringBytes block).bind utfDecode

/-- Native heap: the allocated blocks and the next fresh address.
Address 0 plays the role of the NULL pointer and is never allocated
(concrete instances start next at 1). -/
structure Heap where
  blocks : List (Nat × List Nat)
  next : Nat
deriving DecidableEq

/-- calloc: allocate a zero-filled block of the given byte size at a
fresh address. -/
def Heap.calloc (h : Heap) (len : Nat) : Nat × Heap :=
  (h.next, ⟨(h.next, List.replicate len 0) :: h.blocks, h.next + len + 1⟩)

/-- Overwrite the contents of the block at address a. -/
def Heap.store (h : Heap) (a : Nat) (bs : List Nat) : Heap :=
  ⟨h.blocks.map (fun p => if p.1 = a then (a, bs) else p), h.next⟩

/-- Look up the block allocated at address a. -/
def Heap.lookup (h : Heap) (a : Nat) : Option (List Nat) :=
  (h.blocks.find? (fun p => p.1 == a)).map (fun p => p.2)

/-- Overwrite bytes of dst starting at position ofs with src; bytes that
would land beyond the end of dst are dropped (the destination keeps its
length). -/
def writeBytes (dst : List Nat) (ofs : Nat) (src : List Nat) : List Nat :=
  dst.take ofs ++ src.take (dst.length - ofs) ++ dst.drop (ofs + src.length)

/-- Little-endian byte image of a natural number in w bytes. -/
def natToBytesLE : Nat → Nat → List Nat
  | 0, _ => []
  | w + 1, n => n % 256 :: natToBytesLE w (n / 256)

/-- Natural number denoted by a little-endian byte list. -/
def bytesToNatLE : List Nat → Nat
  | [] => 0
  | b :: bs => b % 256 + 256 * bytesToNatLE bs

/-- The pointer-sized store performed at byteP + bufOfs. -/
def storePtr (b : List Nat) (ofs addr : Nat) : List Nat :=
  writeBytes b ofs (natToBytesLE ptrWidth addr)

/-- The pointer-sized load performed at byteP + ofs. -/
def loadPtr (b : List Nat) (ofs : Nat) : Nat :=
  bytesToNatLE ((b.drop ofs).take ptrWidth)

/-- Observable JNI-side events of one native call.  The numeric tag of a
null-argument report identifies the source message: 0 the str argument
of compoundCpyVLStr, 1 its buf argument, 2 the buf argument of
createVLStrFromCompound, 3 the buf argument of freeCompoundVLStr, 4 its
vlIndices argument.  Pin events carry whether GetPrimitiveArrayCritical
succeeded. -/
inductive Event where
  | nullArgument : Nat → Event
  | pinBuf : Bool → Event
  | pinIdx : Bool → Event
  | releaseBuf : Event
  | releaseIdx : Event
  | fatalError : Event
  | free : Nat → Event
deriving DecidableEq

/-- Result of Java_ch_systemsx_cisd_hdf5_hdf5lib_H5_compoundCpyVLStr:
the jint status, the final contents of the caller's byte array, the
final native heap and the event trace. -/
structure EncodeResult where
  status : Int
  buf : Option (List Nat)
  heap : Heap
  events : List Event
deriving DecidableEq

/-- Embedding of Java_ch_systemsx_cisd_hdf5_hdf5lib_H5_compoundCpyVLStr.
Control flow mirrors the source: null checks on str and buf, then
len = GetStringUTFLength(str), strPCpy = calloc(1, len) (the source does
not allocate a byte for a NUL terminator and never checks the calloc
result), GetStringUTFRegion(str, 0, len, strPCpy) (the source passes the
byte length len where a UTF-16 unit count is expected), then the pin of
buf, the pointer-sized store at bufOfs and the release.  pinOk tells
whether GetPrimitiveArrayCritical succeeds and allocOk whether calloc
succeeds; when calloc fails the region copy into the NULL pointer is
modelled as storing nothing and the NULL address 0 is written into the
slot. -/
def compoundCpyVLStr (str : Option (List Nat)) (buf : Option (List Nat)) (bufOfs : Nat)
    (pinOk : Bool) (allocOk : Bool) (h : Heap) : EncodeResult :=
  match str with
  | none => ⟨-1, buf, h, [Event.nullArgument 0]⟩
  | some s =>
    match buf with
    | none => ⟨-1, none, h, [Event.nullArgument 1]⟩
    | some b =>
      let len := GetStringUTFLength s
      if allocOk then
        let ac := h.calloc len
        let h2 := match GetStringUTFRegion s 0 len with
          | some bs => ac.2.store ac.1 (writeBytes (List.replicate len 0) 0 bs)
          | none => ac.2
        if pinOk then
          ⟨0, some (storePtr b bufOfs ac.1), h2, [Event.pinBuf true, Event.releaseBuf]⟩
        else
          ⟨-1, some b, h2, [Event.pinBuf false, Event.fatalError]⟩
      else
        if pinOk then
          ⟨0, some (storePtr b bufOfs 0), h, [Event.pinBuf true, Event.releaseBuf]⟩
        else
          ⟨-1, some b, h, [Event.pinBuf false, Event.fatalError]⟩

/-- Result of Java_ch_systemsx_cisd_hdf5_hdf5lib_H5_createVLStrFromCompound:
the returned jstring (none both for the NULL failure return and for an
undefined read) and the event trace. -/
structure DecodeResult where
  str : Option (List Nat)
  events : List Event
deriving DecidableEq

/-- Embedding of Java_ch_systemsx_cisd_hdf5_hdf5lib_H5_createVLStrFromCompound:
null check on buf, pin, pointer-sized load at offset, NewStringUTF on the
C string at that address, release.  A load of an address with no
allocated block is undefined and yields none. -/
def createVLStrFromCompound (buf : Option (List Nat)) (offset : Nat)
    (pinOk : Bool) (h : Heap) : DecodeResult :=
  match buf with
  | none => ⟨none, [Event.nullArgument 2]⟩
  | some b =>
    if pinOk then
      ⟨(h.lookup (loadPtr b offset)).bind NewStringUTF,
        [Event.pinBuf true, Event.releaseBuf]⟩
    else
      ⟨none, [Event.pinBuf false, Event.fatalError]⟩

/-- The while loop of freeCompoundVLStr.  Starting from byte offset ofs
it emits, for every record start strictly below bufLen, the pairs
(record start, field offset) whose pointer slots the loop body reads and
frees, in source order, then advances by R = recordSize.  The loop in
the source does not terminate for recordSize = 0, so the model carries
the documented precondition 0 < R. -/
def freeLoop (ix : List Nat) (R : Nat) (bufLen : Nat) (hR : 0 < R) (ofs : Nat) :
    List (Nat × Nat) :=
  if _hlt : ofs < bufLen then
    ix.map (fun i => (ofs, i)) ++ freeLoop ix R bufLen hR (ofs + R)
  else []
termination_by bufLen - ofs
decreasing_by omega

/-- Result of Java_ch_systemsx_cisd_hdf5_hdf5lib_H5_freeCompoundVLStr:
the jint status, the ordered list of (record start, field offset) pairs
whose slots the loop read and freed, and the event trace. -/
structure FreeResult where
  status : Int
  slots : List (Nat × Nat)
  events : List Event
deriving DecidableEq

/-- Embedding of Java_ch_systemsx_cisd_hdf5_hdf5lib_H5_freeCompoundVLStr:
null checks on buf and vlIndices, array lengths, pin of vlIndices, pin of
buf (on whose failure vlIndices is released before the fatal report),
the record loop freeing the pointer found at each (record start + field
offset), then both releases.  The freed address recorded in the trace is
the pointer-sized load at the absolute slot offset. -/
def freeCompoundVLStr (buf : Option (List Nat)) (R : Nat) (vlIndices : Option (List Nat))
    (pinIdxOk : Bool) (pinBufOk : Bool) (hR : 0 < R) : FreeResult :=
  match buf with
  | none => ⟨-1, [], [Event.nullArgument 3]⟩
  | some b =>
    match vlIndices with
    | none => ⟨-1, [], [Event.nullArgument 4]⟩
    | some ix =>
      if pinIdxOk then
        if pinBufOk then
          let slots := freeLoop ix R b.length hR 0
          ⟨0, slots,
            [Event.pinIdx true, Event.pinBuf true]
              ++ slots.map (fun p => Event.free (loadPtr b (p.1 + p.2)))
              ++ [Event.releaseIdx, Event.releaseBuf]⟩
        else
          ⟨-1, [],
            [Event.pinIdx true, Event.pinBuf false, Event.releaseIdx, Event.fatalError]⟩
      else
        ⟨-1, [], [Event.pinIdx false, Event.fatalError]⟩

/-- An event trace releases every pin it acquires when the number of
successful pin events of each array equals the number of release events
of that array. -/
def pinsBalanced (evs : List Event) : Prop :=
  evs.count (Event.pinBuf true) = evs.count Event.releaseBuf
    ∧ evs.count (Event.pinIdx true) = evs.count Event.releaseIdx

/-- Writing never changes the length of the destination buffer. -/
theorem writeBytes_length (dst : List Nat) (ofs : Nat) (src : List Nat) :
    (writeBytes dst ofs src).length = dst.length := by
  simp [writeBytes]
  omega

/-- Bytes strictly before the write window and bytes at or beyond its end
are untouched by writeBytes. -/
theorem writeBytes_getElem?_outside (dst : List Nat) (ofs : Nat) (src : List Nat) (i : Nat)
    (h : i < ofs ∨ ofs + src.length ≤ i) :
    (writeBytes dst ofs src)[i]? = dst[i]? := by
  by_cases hd : i < dst.length
  · rcases h with h1 | h2
    · have hlen : i < (dst.take ofs).length := by
        simp [List.length_take]
        omega
      rw [writeBytes, List.append_assoc, List.getElem?_append, if_pos hlen,
        List.getElem?_take, if_pos h1]
    · have hofs : ofs ≤ dst.length := by omega
      have hsrc : ofs + src.length ≤ dst.length := by omega
      have hab : ((dst.take ofs) ++ src.take (dst.length - ofs)).length = ofs + src.length := by
        simp [List.length_take]
        omega
      rw [writeBytes, List.getElem?_append, if_neg (by omega), hab, List.getElem?_drop]
      congr 1
      omega
  · have h1 : dst[i]? = none := by
      rw [List.getElem?_eq_none_iff]
      omega
    have h2 : (writeBytes dst ofs src)[i]? = none := by
      rw [List.getElem?_eq_none_iff, writeBytes_length]
      omega
    rw [h1, h2]

/-- Reading back the write window recovers exactly the written bytes when
the window lies inside the destination. -/
theorem writeBytes_drop_take (dst : List Nat) (ofs : Nat) (src : List Nat)
    (h : ofs + src.length ≤ dst.length) :
    ((writeBytes dst ofs src).drop ofs).take src.length = src := by
  have htk : src.take (dst.length - ofs) = src := by
    apply List.take_of_length_le
    omega
  have hlen : (dst.take ofs).length = ofs := by
    simp [List.length_take]
    omega
  rw [writeBytes, htk, List.append_assoc, List.drop_left' hlen]
  exact List.take_left' rfl

/-- The byte image of an address always has exactly w bytes. -/
theorem natToBytesLE_length (w n : Nat) : (natToBytesLE w n).length = w := by
  induction w generalizing n with
  | zero => rfl
  | succ w ih => simp [natToBytesLE, ih]

/-- Loading the slot just stored with the NULL address yields 0. -/
theorem loadPtr_storePtr_zero (b : List Nat) (ofs : Nat) (h : ofs + ptrWidth ≤ b.length) :
    loadPtr (storePtr b ofs 0) ofs = 0 := by
  have hdt := writeBytes_drop_take b ofs (natToBytesLE ptrWidth 0)
    (by rw [natToBytesLE_length]; exact h)
  unfold loadPtr storePtr
  rw [natToBytesLE_length] at hdt
  rw [hdt]
  decide

/-- Every pair the loop emits lies at or after the starting offset, some
whole number of records further on, strictly before the buffer length,
and carries a field offset from the index list. -/
theorem freeLoop_mem (ix : List Nat) (R bufLen : Nat) (hR : 0 < R) (ofs : Nat)
    (p : Nat × Nat) (hp : p ∈ freeLoop ix R bufLen hR ofs) :
    ∃ k, p.1 = ofs + k * R ∧ p.1 < bufLen ∧ p.2 ∈ ix := by
  rw [freeLoop] at hp
  split at hp
  · rcases List.mem_append.1 hp with hmem | hrec
    · rcases List.mem_map.1 hmem with ⟨i, hi, hpi⟩
      refine ⟨0, ?_, ?_, ?_⟩
      · rw [← hpi]; simp
      · rw [← hpi]; simpa using ‹ofs < bufLen›
      · rw [← hpi]; simpa using hi
    · obtain ⟨k, hk1, hk2, hk3⟩ := freeLoop_mem ix R bufLen hR (ofs + R) p hrec
      refine ⟨k + 1, ?_, hk2, hk3⟩
      rw [hk1]; ring
  · simp at hp
termination_by bufLen - ofs
decreasing_by omega

/-- Conversely, every record start of the form ofs + k * R that is still
strictly below the buffer length is emitted by the loop, with every
field offset of the index list. -/
theorem freeLoop_mem_of (ix : List Nat) (R bufLen : Nat) (hR : 0 < R) (i : Nat)
    (hi : i ∈ ix) :
    ∀ (k ofs : Nat), ofs + k * R < bufLen → (ofs + k * R, i) ∈ freeLoop ix R bufLen hR ofs := by
  intro k
  induction k with
  | zero =>
    intro ofs h0
    rw [freeLoop, dif_pos (by omega)]
    refine List.mem_append.2 (Or.inl ?_)
    refine List.mem_map.2 ⟨i, hi, ?_⟩
    simp
  | succ k ihk =>
    intro ofs hlt
    have hrw : ofs + (k + 1) * R = (ofs + R) + k * R := by ring
    rw [hrw] at hlt ⊢
    have hofs : ofs < bufLen := by omega
    rw [freeLoop, dif_pos hofs]
    exact List.mem_append.2 (Or.inr (ihk (ofs + R) hlt))

/-- The loop trace is at most one slot per field offset per byte of the
buffer: its length is bounded by (bufLen - ofs) * |ix|. -/
theorem freeLoop_length_le (ix : List Nat) (R bufLen : Nat) (hR : 0 < R) (ofs : Nat) :
    (freeLoop ix R bufLen hR ofs).length ≤ (bufLen - ofs) * ix.length := by
  rw [freeLoop]
  split
  · have hrec := freeLoop_length_le ix R bufLen hR (ofs + R)
    rw [List.length_append, List.length_map]
    have h1 : bufLen - (ofs + R) + 1 ≤ bufLen - ofs := by omega
    calc ix.length + (freeLoop ix R bufLen hR (ofs + R)).length
        ≤ ix.length + (bufLen - (ofs + R)) * ix.length := Nat.add_le_add_left hrec _
      _ = (bufLen - (ofs + R) + 1) * ix.length := by ring
      _ ≤ (bufLen - ofs) * ix.length := Nat.mul_le_mul_right _ h1
  · simp
termination_by bufLen - ofs
decreasing_by omega

/-- On a buffer of exactly N whole records the loop emits precisely the
pairs (record start, field offset) for records 0, .., N-1 in order, with
the field offsets of each record in list order. -/
theorem freeLoop_exact (ix : List Nat) (R : Nat) (hR : 0 < R) :
    ∀ (N ofs : Nat), freeLoop ix R (ofs + N * R) hR ofs
      = (List.range N).flatMap (fun r => ix.map (fun i => (ofs + r * R, i))) := by
  intro N
  induction N with
  | zero =>
    intro ofs
    rw [freeLoop, dif_neg (by omega)]
    simp
  | succ N ih =>
    intro ofs
    have hpos : ofs < ofs + (N + 1) * R := by
      have : 0 < (N + 1) * R := Nat.mul_pos (Nat.succ_pos N) hR
      omega
    rw [freeLoop, dif_pos hpos]
    have hrw : ofs + (N + 1) * R = (ofs + R) + N * R := by ring
    rw [hrw, ih (ofs + R), List.range_succ_eq_map]
    rw [List.flatMap_cons, List.flatMap_map]
    have h0 : ix.map (fun i => (ofs + 0 * R, i)) = ix.map (fun i => (ofs, i)) := by simp
    rw [h0]
    congr 1
    apply List.flatMap_congr
    intro r hr
    congr 1
    funext i
    congr 1
    simp [Nat.succ_eq_add_one]
    ring

/-- Helper: the length of a flatMap all of whose pieces have the same
length c is the number of pieces times c. -/
theorem length_flatMap_const {α β : Type} (l : List α) (f : α → List β) (c : Nat)
    (h : ∀ a ∈ l, (f a).length = c) : (l.flatMap f).length = l.length * c := by
  induction l with
  | nil => simp
  | cons a t ih =>
    rw [List.flatMap_cons, List.length_append, h a (List.mem_cons_self a t),
      ih (fun x hx => h x (List.mem_cons_of_mem a hx)), List.length_cons]
    ring

/-- Helper: an event that is not a free event never occurs in the mapped
free segment of a trace, so its count there is zero. -/
theorem count_map_free_eq_zero (b : List Nat) (l : List (Nat × Nat)) (e : Event)
    (he : ∀ a, e ≠ Event.free a) :
    (l.map (fun p => Event.free (loadPtr b (p.1 + p.2)))).count e = 0 := by
  rw [List.count_eq_zero]
  intro hmem
  rcases List.mem_map.1 hmem with ⟨p, hp, hpe⟩
  exact he _ hpe.symm

/-- C1: evaluation of the code at the failing input.  For the text
"héllo" (UTF-16 units [104, 233, 108, 108, 111], 5 units, modified-UTF-8
length 6) encoded at offset 0 of an 8-byte buffer, compoundCpyVLStr
reports success (status 0), yet the subsequent decode at the same offset
returns the empty string, not "héllo": the source passes the 6-byte UTF
length as the UTF-16 unit count to GetStringUTFRegion, the region call
overflows the 5-unit string and copies nothing, and the zero-filled
6-byte allocation decodes as the empty string.  This contradicts the
claimed round-trip decode(encode(T, buf, O); buf, O) = T. -/
theorem c1_roundtrip_fails_on_accented_text :
    (compoundCpyVLStr (some [104, 233, 108, 108, 111]) (some (List.replicate 8 0)) 0
        true true ⟨[], 1⟩).status = 0
    ∧ (createVLStrFromCompound
        (compoundCpyVLStr (some [104, 233, 108, 108, 111]) (some (List.replicate 8 0)) 0
          true true ⟨[], 1⟩).buf 0 true
        (compoundCpyVLStr (some [104, 233, 108, 108, 111]) (some (List.replicate 8 0)) 0
          true true ⟨[], 1⟩).heap).str = some []
    ∧ some ([] : List Nat) ≠ some [104, 233, 108, 108, 111] := by
  decide

/-- C3 counterexample: the allocated native copy is not null-terminated.
Encoding the two-byte ASCII text "hi" ([104, 105]) allocates exactly two
bytes (calloc(1, len) with no byte for a terminator) and the copy fills
both, so the block at address 1 is [104, 105] and contains no NUL byte,
refuting the claim that encode allocates a null-terminated native
copy. -/
theorem c3_counterexample_no_nul_terminator :
    (compoundCpyVLStr (some [104, 105]) (some (List.replicate 8 0)) 0 true true
        ⟨[], 1⟩).heap.lookup 1 = some [104, 105]
    ∧ ¬ ((0 : Nat) ∈ [104, 105]) := by
  decide

/-- C3 amended: for every non-absent text, encode allocates a native
copy whose allocation is sized using the text's modified-UTF-8 encoded
byte length (GetStringUTFLength), not its character count, and the block
keeps exactly that many bytes after the copy; no extra byte is reserved
for a NUL terminator. -/
theorem c3_allocation_sized_by_encoded_byte_length (s b : List Nat) (ofs : Nat)
    (pinOk : Bool) (h : Heap) :
    ((compoundCpyVLStr (some s) (some b) ofs pinOk true h).heap.blocks.head?).map
        (fun p => p.2.length)
      = some (GetStringUTFLength s) := by
  cases hreg : GetStringUTFRegion s 0 (GetStringUTFLength s) with
  | none => cases pinOk <;> simp [compoundCpyVLStr, Heap.calloc, hreg]
  | some bs =>
    cases pinOk <;>
      simp [compoundCpyVLStr, Heap.calloc, Heap.store, hreg, writeBytes_length]

/-- C6: whenever encode fails, that is when the text is absent, the
buffer is absent, or the buffer cannot be pinned, compoundCpyVLStr
returns the failure status -1 and the caller's buffer is byte-for-byte
unchanged (in particular no String Slot is partially written). -/
theorem c6_encode_failure_returns_minus_one_buffer_untouched
    (str buf : Option (List Nat)) (ofs : Nat) (pinOk aOk : Bool) (h : Heap)
    (hf : str = none ∨ buf = none ∨ pinOk = false) :
    (compoundCpyVLStr str buf ofs pinOk aOk h).status = -1
    ∧ (compoundCpyVLStr str buf ofs pinOk aOk h).buf = buf := by
  cases str <;> cases buf <;> cases pinOk <;> cases aOk <;> simp_all [compoundCpyVLStr]

/-- C6 witness: instantiated at an absent text with an 8-byte buffer. -/
theorem c6_witness :
    ((none : Option (List Nat)) = none ∨ (some (List.replicate 8 (0 : Nat))) = none
      ∨ true = false)
    ∧ ((compoundCpyVLStr none (some (List.replicate 8 0)) 0 true true ⟨[], 1⟩).status = -1
      ∧ (compoundCpyVLStr none (some (List.replicate 8 0)) 0 true true ⟨[], 1⟩).buf
          = some (List.replicate 8 0)) :=
  ⟨Or.inl rfl,
    c6_encode_failure_returns_minus_one_buffer_untouched none (some (List.replicate 8 0))
      0 true true ⟨[], 1⟩ (Or.inl rfl)⟩

/-- C9: a successful encode (both arguments present, pin succeeded, so
the status is 0) changes no byte of the buffer outside the pointer-sized
window starting at the slot offset: every index below the offset or at
least ptrWidth past it reads back unchanged. -/
theorem c9_encode_frame (s b : List Nat) (ofs : Nat) (aOk : Bool) (h : Heap) (i : Nat)
    (hi : i < ofs ∨ ofs + ptrWidth ≤ i) :
    (compoundCpyVLStr (some s) (some b) ofs true aOk h).status = 0
    ∧ ((compoundCpyVLStr (some s) (some b) ofs true aOk h).buf.getD [])[i]? = b[i]? := by
  have hfr : ∀ a, (storePtr b ofs a)[i]? = b[i]? := fun a =>
    writeBytes_getElem?_outside b ofs _ i (by rw [natToBytesLE_length]; exact hi)
  cases aOk with
  | false => exact ⟨by simp [compoundCpyVLStr], by simpa [compoundCpyVLStr] using hfr 0⟩
  | true => exact ⟨by simp [compoundCpyVLStr], by simpa [compoundCpyVLStr] using hfr _⟩

/-- C9 witness: instantiated at a one-character text, a 9-byte buffer,
slot offset 0 and the out-of-window index 8. -/
theorem c9_witness :
    ((8 : Nat) < 0 ∨ 0 + ptrWidth ≤ 8)
    ∧ ((compoundCpyVLStr (some [104]) (some (List.replicate 9 0)) 0 true true
          ⟨[], 1⟩).status = 0
      ∧ ((compoundCpyVLStr (some [104]) (some (List.replicate 9 0)) 0 true true
          ⟨[], 1⟩).buf.getD [])[8]? = (List.replicate 9 (0 : Nat))[8]?) :=
  ⟨Or.inr (by decide),
    c9_encode_frame [104] (List.replicate 9 0) 0 true ⟨[], 1⟩ 8 (Or.inr (by decide))⟩

/-- C10: when both arguments are present and the pin succeeds but calloc
fails, compoundCpyVLStr still returns the success status 0, because the
calloc result is never checked, and the NULL address 0 has been stored
into the String Slot. -/
theorem c10_alloc_failure_reports_success (s b : List Nat) (ofs : Nat) (h : Heap)
    (hofs : ofs + ptrWidth ≤ b.length) :
    (compoundCpyVLStr (some s) (some b) ofs true false h).status = 0
    ∧ loadPtr ((compoundCpyVLStr (some s) (some b) ofs true false h).buf.getD []) ofs = 0 := by
  refine ⟨by simp [compoundCpyVLStr], ?_⟩
  have hb : (compoundCpyVLStr (some s) (some b) ofs true false h).buf
      = some (storePtr b ofs 0) := by
    simp [compoundCpyVLStr]
  rw [hb]
  simpa using loadPtr_storePtr_zero b ofs hofs

/-- C10 witness: instantiated at a one-character text and an 8-byte
buffer with slot offset 0. -/
theorem c10_witness :
    (0 + ptrWidth ≤ (List.replicate 8 (0 : Nat)).length)
    ∧ ((compoundCpyVLStr (some [104]) (some (List.replicate 8 0)) 0 true false
          ⟨[], 1⟩).status = 0
      ∧ loadPtr ((compoundCpyVLStr (some [104]) (some (List.replicate 8 0)) 0 true false
          ⟨[], 1⟩).buf.getD []) 0 = 0) :=
  ⟨by decide,
    c10_alloc_failure_reports_success [104] (List.replicate 8 0) 0 ⟨[], 1⟩ (by decide)⟩

/-- C2 counterexample: the final partial tail record IS processed.  With
a 12-byte buffer, recordSize 8 and field offsets [0], the tail record
starting at offset 8 is only 4 bytes long (8 + 8 exceeds 12), yet the
loop reads and frees its pointer slot: the pair (8, 0) occurs in the
processed-slot trace.  This refutes the claim that no pointer slot
belonging to a record shorter than recordSize is read or freed. -/
theorem c2_counterexample_tail_slot_read :
    ((8 : Nat), (0 : Nat)) ∈
      (freeCompoundVLStr (some (List.replicate 12 0)) 8 (some [0]) true true
        (by decide)).slots
    ∧ ¬ ((8 : Nat) + 8 ≤ (List.replicate 12 (0 : Nat)).length) := by
  constructor
  · have hm := freeLoop_mem_of [0] 8 12 (by decide) 0 (by decide) 1 0 (by decide)
    have hs : (freeCompoundVLStr (some (List.replicate 12 (0 : Nat))) 8 (some [0]) true true
        (by decide)).slots = freeLoop [0] 8 12 (by decide) 0 := by
      simp [freeCompoundVLStr]
    rw [hs]
    simpa using hm
  · decide

/-- C2 amended: the record-partitioning loop stops once the running
offset is no longer strictly less than the buffer length (every
processed record start is below the buffer length), but as a consequence
a final partial tail record is NOT skipped: when the buffer length is
not a multiple of recordSize, the record starting at the last multiple
of recordSize below the buffer length is processed (each of its slots is
read and freed) even though it extends past the end of the buffer. -/
theorem c2_amended_tail_record_is_processed (b : List Nat) (R : Nat) (hR : 0 < R)
    (ix : List Nat) (i : Nat) (hi : i ∈ ix) (hnd : ¬ R ∣ b.length) :
    (∀ p ∈ (freeCompoundVLStr (some b) R (some ix) true true hR).slots, p.1 < b.length)
    ∧ (b.length / R * R, i) ∈ (freeCompoundVLStr (some b) R (some ix) true true hR).slots
    ∧ b.length < b.length / R * R + R := by
  have hs : (freeCompoundVLStr (some b) R (some ix) true true hR).slots
      = freeLoop ix R b.length hR 0 := by simp [freeCompoundVLStr]
  have key : R * (b.length / R) + b.length % R = b.length := Nat.div_add_mod _ _
  rw [Nat.mul_comm] at key
  have hmlt : b.length % R < R := Nat.mod_lt _ hR
  have hmne : b.length % R ≠ 0 := fun h0 => hnd (Nat.dvd_of_mod_eq_zero h0)
  have hlt : b.length / R * R < b.length := by
    calc b.length / R * R
        < b.length / R * R + b.length % R :=
          Nat.lt_add_of_pos_right (Nat.pos_of_ne_zero hmne)
      _ = b.length := key
  refine ⟨?_, ?_, ?_⟩
  · intro p hp
    rw [hs] at hp
    obtain ⟨k, _, hk2, _⟩ := freeLoop_mem ix R b.length hR 0 p hp
    exact hk2
  · rw [hs]
    have hm := freeLoop_mem_of ix R b.length hR i hi (b.length / R) 0 (by simpa using hlt)
    simpa using hm
  · calc b.length = b.length / R * R + b.length % R := key.symm
      _ < b.length / R * R + R := Nat.add_lt_add_left hmlt _

/-- C2 witness for the amended claim: 12-byte buffer, recordSize 8,
field offsets [0]. -/
theorem c2_witness :
    ((0 : Nat) < 8 ∧ (0 : Nat) ∈ [(0 : Nat)]
      ∧ ¬ (8 : Nat) ∣ (List.replicate 12 (0 : Nat)).length)
    ∧ ((∀ p ∈ (freeCompoundVLStr (some (List.replicate 12 0)) 8 (some [0]) true true
          (by decide)).slots, p.1 < (List.replicate 12 (0 : Nat)).length)
      ∧ ((List.replicate 12 (0 : Nat)).length / 8 * 8, (0 : Nat)) ∈
          (freeCompoundVLStr (some (List.replicate 12 0)) 8 (some [0]) true true
            (by decide)).slots
      ∧ (List.replicate 12 (0 : Nat)).length
          < (List.replicate 12 (0 : Nat)).length / 8 * 8 + 8) :=
  ⟨⟨by decide, by decide, by decide⟩,
    c2_amended_tail_record_is_processed (List.replicate 12 0) 8 (by decide) [0] 0
      (by decide) (by decide)⟩

/-- C4: on a buffer of exactly N * recordSize bytes with both pins
succeeding, the release loop reads and frees exactly the (record start,
field offset) pairs of records 0, .., N-1 in record order with the field
offsets of each record in the given order, hence exactly N * |offsetSet|
frees, and for a duplicate-free offset set no pair is ever freed
twice. -/
theorem c4_release_one_free_per_pair (ix : List Nat) (R N : Nat) (hR : 0 < R)
    (b : List Nat) (hb : b.length = N * R) :
    (freeCompoundVLStr (some b) R (some ix) true true hR).slots
        = (List.range N).flatMap (fun r => ix.map (fun i => (r * R, i)))
    ∧ (freeCompoundVLStr (some b) R (some ix) true true hR).slots.length = N * ix.length
    ∧ (ix.Nodup → (freeCompoundVLStr (some b) R (some ix) true true hR).slots.Nodup) := by
  have hs : (freeCompoundVLStr (some b) R (some ix) true true hR).slots
      = freeLoop ix R b.length hR 0 := by simp [freeCompoundVLStr]
  have h0 := freeLoop_exact ix R hR N 0
  simp only [Nat.zero_add] at h0
  have hchar : (freeCompoundVLStr (some b) R (some ix) true true hR).slots
      = (List.range N).flatMap (fun r => ix.map (fun i => (r * R, i))) := by
    rw [hs, hb, h0]
  refine ⟨hchar, ?_, ?_⟩
  · rw [hchar, length_flatMap_const _ _ ix.length (fun a _ => by simp)]
    simp
  · intro hix
    have hprod : (List.range N).flatMap (fun r => ix.map (fun i => (r * R, i)))
        = ((List.range N) ×ˢ ix).map (fun p => (p.1 * R, p.2)) := by
      show _ = ((List.range N).flatMap (fun a => ix.map (Prod.mk a))).map
        (fun p => (p.1 * R, p.2))
      rw [List.map_flatMap]
      apply List.flatMap_congr
      intro r hr
      rw [List.map_map]
      rfl
    have hinj : Function.Injective (fun p : Nat × Nat => (p.1 * R, p.2)) := by
      intro p q hpq
      have hpq2 : (p.1 * R, p.2) = (q.1 * R, q.2) := hpq
      rw [Prod.mk.injEq] at hpq2
      have h3 : p.1 = q.1 := Nat.eq_of_mul_eq_mul_right hR hpq2.1
      cases p; cases q; simp_all
    rw [hchar, hprod]
    exact (List.Nodup.product (List.nodup_range N) hix).map hinj

/-- C4 witness: two records of 8 bytes each, field offsets [0]. -/
theorem c4_witness :
    ((0 : Nat) < 8 ∧ (List.replicate 16 (0 : Nat)).length = 2 * 8)
    ∧ ((freeCompoundVLStr (some (List.replicate 16 0)) 8 (some [0]) true true
          (by decide)).slots
        = (List.range 2).flatMap (fun r => [(0 : Nat)].map (fun i => (r * 8, i)))
      ∧ (freeCompoundVLStr (some (List.replicate 16 0)) 8 (some [0]) true true
          (by decide)).slots.length = 2 * [(0 : Nat)].length
      ∧ ([(0 : Nat)].Nodup →
          (freeCompoundVLStr (some (List.replicate 16 0)) 8 (some [0]) true true
            (by decide)).slots.Nodup)) :=
  ⟨⟨by decide, by decide⟩,
    c4_release_one_free_per_pair [0] 8 2 (by decide) (List.replicate 16 0) (by decide)⟩

/-- C5: whenever a required argument is absent, the operation reports
exactly the corresponding absent-argument error and nothing else: the
whole event trace is the single null-argument report, so in particular
no pin/access of any array is ever attempted.  The five cases are the
absent text and absent buffer of encode, the absent buffer of decode,
and the absent buffer and absent offset collection of releaseAll. -/
theorem c5_absent_argument_reported_without_pin :
    (∀ buf ofs pinOk aOk h,
      (compoundCpyVLStr none buf ofs pinOk aOk h).events = [Event.nullArgument 0])
    ∧ (∀ s ofs pinOk aOk h,
      (compoundCpyVLStr (some s) none ofs pinOk aOk h).events = [Event.nullArgument 1])
    ∧ (∀ ofs pinOk h,
      (createVLStrFromCompound none ofs pinOk h).events = [Event.nullArgument 2])
    ∧ (∀ R (hR : 0 < R) ix p1 p2,
      (freeCompoundVLStr none R ix p1 p2 hR).events = [Event.nullArgument 3])
    ∧ (∀ b R (hR : 0 < R) p1 p2,
      (freeCompoundVLStr (some b) R none p1 p2 hR).events = [Event.nullArgument 4]) :=
  ⟨fun _ _ _ _ _ => rfl, fun _ _ _ _ _ => rfl, fun _ _ _ => rfl,
    fun _ _ _ _ _ => rfl, fun _ _ _ _ _ => rfl⟩

/-- C5 witness: absent buffer for releaseAll and absent text for
encode. -/
theorem c5_witness :
    (freeCompoundVLStr none 8 (some [0]) true true (by decide)).events
        = [Event.nullArgument 3]
    ∧ (compoundCpyVLStr none (some (List.replicate 8 0)) 0 true true ⟨[], 1⟩).events
        = [Event.nullArgument 0] :=
  ⟨c5_absent_argument_reported_without_pin.2.2.2.1 8 (by decide) (some [0]) true true,
    c5_absent_argument_reported_without_pin.1 (some (List.replicate 8 0)) 0 true true
      ⟨[], 1⟩⟩

/-- C7: every operation releases every pin it acquires on every exit
path: in the event trace of any call to encode, decode or releaseAll,
with any combination of absent arguments and pin outcomes, the number of
successful pin events of each array equals the number of release events
of that array. -/
theorem c7_pins_released_on_every_path :
    (∀ str buf ofs pinOk aOk h,
      pinsBalanced (compoundCpyVLStr str buf ofs pinOk aOk h).events)
    ∧ (∀ buf ofs pinOk h, pinsBalanced (createVLStrFromCompound buf ofs pinOk h).events)
    ∧ (∀ buf R ix p1 p2 (hR : 0 < R),
      pinsBalanced (freeCompoundVLStr buf R ix p1 p2 hR).events) := by
  refine ⟨?_, ?_, ?_⟩
  · intro str buf ofs pinOk aOk h
    cases str with
    | none => exact (And.intro rfl rfl : pinsBalanced [Event.nullArgument 0])
    | some s =>
      cases buf with
      | none => exact (And.intro rfl rfl : pinsBalanced [Event.nullArgument 1])
      | some b =>
        cases pinOk <;> cases aOk
        · exact (And.intro rfl rfl : pinsBalanced [Event.pinBuf false, Event.fatalError])
        · exact (And.intro rfl rfl : pinsBalanced [Event.pinBuf false, Event.fatalError])
        · exact (And.intro rfl rfl : pinsBalanced [Event.pinBuf true, Event.releaseBuf])
        · exact (And.intro rfl rfl : pinsBalanced [Event.pinBuf true, Event.releaseBuf])
  · intro buf ofs pinOk h
    cases buf with
    | none => exact (And.intro rfl rfl : pinsBalanced [Event.nullArgument 2])
    | some b =>
      cases pinOk
      · exact (And.intro rfl rfl : pinsBalanced [Event.pinBuf false, Event.fatalError])
      · exact (And.intro rfl rfl : pinsBalanced [Event.pinBuf true, Event.releaseBuf])
  · intro buf R ix p1 p2 hR
    cases buf with
    | none => exact (And.intro rfl rfl : pinsBalanced [Event.nullArgument 3])
    | some b =>
      cases ix with
      | none => exact (And.intro rfl rfl : pinsBalanced [Event.nullArgument 4])
      | some l =>
        cases p1
        · exact (And.intro rfl rfl : pinsBalanced [Event.pinIdx false, Event.fatalError])
        · cases p2
          · exact (And.intro rfl rfl : pinsBalanced
              [Event.pinIdx true, Event.pinBuf false, Event.releaseIdx, Event.fatalError])
          · have hev : (freeCompoundVLStr (some b) R (some l) true true hR).events
                = [Event.pinIdx true, Event.pinBuf true]
                  ++ (freeLoop l R b.length hR 0).map
                      (fun p => Event.free (loadPtr b (p.1 + p.2)))
                  ++ [Event.releaseIdx, Event.releaseBuf] := rfl
            rw [hev]
            unfold pinsBalanced
            constructor
            · simp only [List.count_append]
              rw [count_map_free_eq_zero b _ _ (fun a hc => Event.noConfusion hc),
                count_map_free_eq_zero b _ _ (fun a hc => Event.noConfusion hc)]
              decide
            · simp only [List.count_append]
              rw [count_map_free_eq_zero b _ _ (fun a hc => Event.noConfusion hc),
                count_map_free_eq_zero b _ _ (fun a hc => Event.noConfusion hc)]
              decide

/-- C7 witness: releaseAll on a full call with both pins succeeding. -/
theorem c7_witness :
    pinsBalanced (freeCompoundVLStr (some (List.replicate 16 0)) 8 (some [0]) true true
      (by decide)).events :=
  c7_pins_released_on_every_path.2.2 (some (List.replicate 16 0)) 8 (some [0]) true true
    (by decide)

/-- C8: under the precondition that recordSize is positive, the release
loop terminates with a trace bounded by the buffer length: the total
number of processed (record, offset) pairs is at most bufferLength times
the number of field offsets, and every processed record start is a whole
multiple of recordSize below the buffer length (the loop advances by
recordSize from offset 0). -/
theorem c8_release_terminates_in_bounded_steps (b : List Nat) (R : Nat) (hR : 0 < R)
    (ix : List Nat) (p1 p2 : Bool) :
    (freeCompoundVLStr (some b) R (some ix) p1 p2 hR).slots.length
        ≤ b.length * ix.length
    ∧ ∀ q ∈ (freeCompoundVLStr (some b) R (some ix) p1 p2 hR).slots,
        ∃ k, q.1 = k * R ∧ q.1 < b.length := by
  cases p1
  · exact ⟨by simp [freeCompoundVLStr], by simp [freeCompoundVLStr]⟩
  · cases p2
    · exact ⟨by simp [freeCompoundVLStr], by simp [freeCompoundVLStr]⟩
    · have hs : (freeCompoundVLStr (some b) R (some ix) true true hR).slots
          = freeLoop ix R b.length hR 0 := by simp [freeCompoundVLStr]
      constructor
      · rw [hs]
        simpa using freeLoop_length_le ix R b.length hR 0
      · intro q hq
        rw [hs] at hq
        obtain ⟨k, hk1, hk2, _⟩ := freeLoop_mem ix R b.length hR 0 q hq
        exact ⟨k, by simpa using hk1, hk2⟩

/-- C8 witness: 12-byte buffer (not a multiple), recordSize 8, offsets
[0]. -/
theorem c8_witness :
    ((0 : Nat) < 8)
    ∧ ((freeCompoundVLStr (some (List.replicate 12 0)) 8 (some [0]) true true
          (by decide)).slots.length
        ≤ (List.replicate 12 (0 : Nat)).length * [(0 : Nat)].length
      ∧ ∀ q ∈ (freeCompoundVLStr (some (List.replicate 12 0)) 8 (some [0]) true true
          (by decide)).slots,
          ∃ k, q.1 = k * 8 ∧ q.1 < (List.replicate 12 (0 : Nat)).length) :=
  ⟨by decide,
    c8_release_terminates_in_bounded_steps (List.replicate 12 0) 8 (by decide) [0]
      true true⟩

end VLStr
